import Mathlib

/-!
# Verification of the prek repository store GC and hook execution pipeline

This file gives a shallow embedding of `src/src/cli/gc.rs` (the garbage
collector of the content-addressed repository store) together with
spec-modelled definitions for the Store's `repo_path` derivation and the
hook execution pipeline (whose implementations are not part of the given
sources; only their tests and call sites are), and proves the specified
properties about them.
-/

namespace Prek

/-- File-system paths (`PathBuf` in the source). -/
abbrev Path := String

/-- The payload `Remote { url, rev }` of the `Repo::Remote` variant
(`src/src/cli/gc.rs` line 39 / the `crate::config` data model). -/
structure RemoteRepo where
  url : String
  rev : String
deriving DecidableEq, Repr

/-- A configuration repository entry (`Repo`): `Remote { url, rev }`,
`Local`, or `Meta` (only `Remote` corresponds to a store cache entry). -/
inductive Repo where
  | Remote (repo : RemoteRepo)
  | Local
  | Meta
deriving DecidableEq, Repr

/-- The part (`Config`) of a parsed configuration file that GC consumes:
its ordered list of repository entries (`config.repos`, gc.rs line 38). -/
structure Config where
  repos : List Repo
deriving DecidableEq, Repr

/-- Events emitted by the embedded `gc`, used to express the temporal
claim about the store lock: acquiring/releasing the lock (gc.rs line 14,
RAII guard `_lock` dropped at scope end), reading `repos_dir`
(line 20), reading a registered configuration (line 32) and calling
`delete_repo` (line 56). -/
inductive Event where
  | lockAcquire
  | lockRelease
  | readDir
  | readConfigEv (p : Path)
  | deleteEv (p : Path)
deriving DecidableEq, Repr

/-- The environment `gc` runs against: the outcome of each fallible
collaborator call made by `src/src/cli/gc.rs`.
* `store_ok` — `STORE.as_ref()` (line 13) succeeds;
* `lock_ok` — `store.lock()` (line 14) succeeds;
* `read_dir_ok` — `store.repos_dir().read_dir()` (line 20) succeeds;
* `entry_ok` — whether an individual directory entry is `Ok` during
  iteration (line 21, `filter_map(Result::ok)`);
* `select_all_configs` — result of `store.select_all_configs()` (line 29);
* `read_config` — `crate::config::read_config` (line 32);
* `repo_path` — `store.repo_path` (line 40);
* `delete_ok` — whether `store.delete_repo` succeeds for a path (line 56). -/
structure StoreEnv where
  store_ok : Bool
  lock_ok : Bool
  read_dir_ok : Bool
  entry_ok : Path → Bool
  select_all_configs : Except Unit (List Path)
  read_config : Path → Except Unit Config
  repo_path : RemoteRepo → Path
  delete_ok : Path → Bool

/-- gc.rs lines 17–26: the on-disk set of cached repositories, when
`repos_dir` exists and `read_dir` succeeds — every entry whose iteration
result is `Ok`, collected into a `HashSet` (hence `dedup`). -/
def all_repos_on_disk (env : StoreEnv) (entries : List Path) : List Path :=
  (entries.filter env.entry_ok).dedup

/-- gc.rs lines 30–33: `used_configs.into_iter().filter_map(|path|
read_config(&path).ok())` — registered configurations that still read
and parse successfully. -/
def live_configs (env : StoreEnv) (paths : List Path) : List Config :=
  paths.filterMap fun p => (env.read_config p).toOption

/-- gc.rs lines 36–44: the set of cache paths still referenced: for
every live config, for every `Repo::Remote`, `store.repo_path(remote)`. -/
def used_repo_paths (env : StoreEnv) (configs : List Config) : List Path :=
  configs.flatMap fun c =>
    c.repos.filterMap fun r =>
      match r with
      | Repo.Remote rr => some (env.repo_path rr)
      | Repo.Local => none
      | Repo.Meta => none

/-- gc.rs lines 47–50: `all_repos_on_disk.difference(&used_repo_paths)`. -/
def unused_repos (on_disk used : List Path) : List Path :=
  on_disk.filter fun p => !decide (p ∈ used)

/-- gc.rs lines 53–57: the deletion sweep. For each unused path in turn
call `store.delete_repo(path)?`; on the first failure the `?` operator
aborts the loop (nothing further is deleted). Returns whether the sweep
completed, the resulting contents of `repos_dir`, and the emitted
`deleteEv` events (one per attempted call). -/
def delete_sweep (env : StoreEnv) : List Path → List Path → Bool × List Path × List Event
  | [], dir => (true, dir, [])
  | p :: rest, dir =>
    if env.delete_ok p then
      let s := delete_sweep env rest (dir.filter fun q => !decide (q = p))
      (s.1, s.2.1, Event.deleteEv p :: s.2.2)
    else (false, dir, [Event.deleteEv p])

/-- The body of `gc` between lock acquisition and release
(gc.rs lines 16–65). The input `dir` is the state of `repos_dir`:
`none` when the directory does not exist (line 17 `exists()` check),
`some entries` otherwise. Returns the exit value (`Ok count` for
`ExitStatus::Success` with the printed count, `Err` for a propagated
error), the final state of `repos_dir`, and the event trace. -/
def gc_body (env : StoreEnv) (dir : Option (List Path)) :
    Except Unit Nat × Option (List Path) × List Event :=
  match dir with
  | none =>
    match env.select_all_configs with
    | Except.error _ => (Except.error (), none, [])
    | Except.ok cfgs => (Except.ok 0, none, cfgs.map Event.readConfigEv)
  | some entries =>
    if env.read_dir_ok then
      match env.select_all_configs with
      | Except.error _ => (Except.error (), some entries, [Event.readDir])
      | Except.ok cfgs =>
        let used := used_repo_paths env (live_configs env cfgs)
        let unused := unused_repos (all_repos_on_disk env entries) used
        let s := delete_sweep env unused entries
        ((if s.1 then Except.ok unused.length else Except.error ()),
          some s.2.1,
          Event.readDir :: cfgs.map Event.readConfigEv ++ s.2.2)
    else (Except.error (), some entries, [Event.readDir])

/-- The observable result of a `gc` run: the exit value (`Ok count`
for success with the printed `"<count> repo(s) removed."` line, `Err`
otherwise), the final state of `repos_dir`, and the event trace. -/
structure GcResult where
  exit : Except Unit Nat
  repos_dir : Option (List Path)
  trace : List Event

/-- The command `gc` (src/src/cli/gc.rs lines 12–66): obtain the store handle
(line 13) and acquire its exclusive lock (line 14); the RAII guard
`_lock` is released when the function's scope ends on every exit path,
so the whole body runs between `lockAcquire` and `lockRelease`. -/
def gc (env : StoreEnv) (dir : Option (List Path)) : GcResult :=
  if env.store_ok then
    if env.lock_ok then
      let b := gc_body env dir
      ⟨b.1, b.2.1, Event.lockAcquire :: (b.2.2 ++ [Event.lockRelease])⟩
    else ⟨Except.error (), dir, []⟩
  else ⟨Except.error (), dir, []⟩

/-- The character-list encoding underlying `repo_path`: a length prefix
(`url.length` copies of `x`), a marker, then the url and the rev.
The length prefix makes the encoding injective in `(url, rev)` even
though url and rev are concatenated without a separator. -/
def encode_remote (r : RemoteRepo) : List Char :=
  List.replicate r.url.length 'x' ++ '-' :: (r.url.data ++ r.rev.data)

/-- Modelled from the spec: the Store method `repo_path` is not under
`src/` — only its call site (gc.rs line 40) is. Per §4.1 it is a "pure
function, deterministic content-address derivation (e.g., a stable hash
of `url` and `rev`) mapped under `repos_dir`", and per §3 "two `Remote`
repos with the same `(url, rev)` must map to the same cache path ... and
distinct `(url, rev)` pairs must map to distinct paths". We realize the
derivation with a concrete injective encoding under `repos_dir`. -/
def repo_path (repos_dir : String) (r : RemoteRepo) : String :=
  repos_dir ++ "/" ++ String.mk (encode_remote r)

/-! ## The hook execution pipeline (spec §4.3)

The pipeline implementation is not under `src/`; only its integration
tests (`src/tests/dry_run.rs`) are. The following definitions are
modelled from the spec. -/

/-- A matched file name. -/
abbrev FileName := String

/-- File contents, as a byte sequence ("content fingerprint" is content
equality: the spec's §4.3 mandate is byte-identity). -/
abbrev Content := List Nat

/-- The execution mode flag of a run (spec §4.3): `Apply` when the
dry-run flag is absent, `DryRun` when it is given. -/
inductive Mode where
  | Apply
  | DryRun
deriving DecidableEq, Repr

/-- Terminal states of a hook invocation (spec §4.3):
`Pending → Running → {Passed, Failed, ModifiedFiles, DryRun, Errored}`. -/
inductive Outcome where
  | Passed
  | Failed
  | ModifiedFiles
  | DryRun
  | Errored
deriving DecidableEq, Repr

/-- The observable result of one hook invocation: the terminal outcome,
the file system after the invocation, and the reported list of files
that changed (the "would modify" list in dry-run mode). -/
structure HookResult where
  outcome : Outcome
  fs : FileName → Option Content
  changed : List FileName

/-- Modelled from the spec: the Execution Pipeline of §4.3, not under
`src/` (only `src/tests/dry_run.rs` is). A hook is a function from the
file system to `none` (spawn failure → `Errored`) or the file system it
leaves behind together with its exit code. The pipeline captures
pre-execution fingerprints of the matched files, runs the hook, and
classifies: non-zero exit → `Failed`; no fingerprint differs → `Passed`;
otherwise `ModifiedFiles` in apply mode, or the `DryRun` outcome with
the reported would-modify list in dry-run mode. In dry-run mode the
matched files are restored to their pre-invocation contents on every
path ("dry-run must never be observable as a mutation"). -/
def run_hook (hook : (FileName → Option Content) → Option ((FileName → Option Content) × Nat))
    (mode : Mode) (files : List FileName) (fs0 : FileName → Option Content) : HookResult :=
  match hook fs0 with
  | none => ⟨Outcome.Errored, fs0, []⟩
  | some r =>
    let fs1 := r.1
    let restored : FileName → Option Content := fun f => if f ∈ files then fs0 f else fs1 f
    let after := match mode with | Mode.Apply => fs1 | Mode.DryRun => restored
    if r.2 ≠ 0 then ⟨Outcome.Failed, after, []⟩
    else
      let changed := files.filter fun f => !decide (fs0 f = fs1 f)
      if changed.isEmpty then ⟨Outcome.Passed, after, []⟩
      else
        match mode with
        | Mode.Apply => ⟨Outcome.ModifiedFiles, fs1, changed⟩
        | Mode.DryRun => ⟨Outcome.DryRun, restored, changed⟩

/-- Modelled from the spec (§4.3/§7): whether a hook outcome makes the
whole run fail — `Failed`, `ModifiedFiles` and `Errored` do; `Passed`
and `DryRun` do not. -/
def hook_fails : Outcome → Bool
  | Outcome.Failed => true
  | Outcome.ModifiedFiles => true
  | Outcome.Errored => true
  | Outcome.Passed => false
  | Outcome.DryRun => false

/-- Modelled from the spec (§4.3/§7): the aggregate process exit code of
a run, from the outcomes of all its hooks. -/
def run_exit_code (outcomes : List Outcome) : Nat :=
  if outcomes.any hook_fails then 1 else 0

/-! ## Concrete store environments used by the witnesses -/

/-- A store with one registered config `cfg` pinning the remote
`(u, r)`, whose cache path is `repos/u-r`; everything succeeds. -/
def env1 : StoreEnv where
  store_ok := true
  lock_ok := true
  read_dir_ok := true
  entry_ok := fun _ => true
  select_all_configs := Except.ok ["cfg"]
  read_config := fun p =>
    if p = "cfg" then Except.ok ⟨[Repo.Remote ⟨"u", "r"⟩]⟩ else Except.error ()
  repo_path := fun rr => "repos/" ++ rr.url ++ "-" ++ rr.rev
  delete_ok := fun _ => true

/-- A store whose single registered config holds only `local` and `meta`
repos (scenario C of the spec). -/
def env_local_meta : StoreEnv where
  store_ok := true
  lock_ok := true
  read_dir_ok := true
  entry_ok := fun _ => true
  select_all_configs := Except.ok ["cfg"]
  read_config := fun p =>
    if p = "cfg" then Except.ok ⟨[Repo.Local, Repo.Meta]⟩ else Except.error ()
  repo_path := fun rr => "repos/" ++ rr.url ++ "-" ++ rr.rev
  delete_ok := fun _ => true

/-- A store with no live configuration and a `delete_repo` that always
fails. -/
def env_del_fail : StoreEnv where
  store_ok := true
  lock_ok := true
  read_dir_ok := true
  entry_ok := fun _ => true
  select_all_configs := Except.ok []
  read_config := fun _ => Except.error ()
  repo_path := fun rr => "repos/" ++ rr.url ++ "-" ++ rr.rev
  delete_ok := fun _ => false

/-- A store whose single registered config no longer reads (deleted or
unparseable), with one cached repository left behind. -/
def env_bad_cfg : StoreEnv where
  store_ok := true
  lock_ok := true
  read_dir_ok := true
  entry_ok := fun _ => true
  select_all_configs := Except.ok ["cfg"]
  read_config := fun _ => Except.error ()
  repo_path := fun rr => "repos/" ++ rr.url ++ "-" ++ rr.rev
  delete_ok := fun _ => true

/-- A store whose directory iteration yields an error for the entry
`repos/bad` (it is skipped by `filter_map(Result::ok)`). -/
def env_entry_err : StoreEnv where
  store_ok := true
  lock_ok := true
  read_dir_ok := true
  entry_ok := fun p => !decide (p = "repos/bad")
  select_all_configs := Except.ok []
  read_config := fun _ => Except.error ()
  repo_path := fun rr => "repos/" ++ rr.url ++ "-" ++ rr.rev
  delete_ok := fun _ => true

/-- An end-of-file-fixer style hook (scenario D of the spec): appends a
newline byte to `file.txt` and exits 0. -/
def fixer_hook : (FileName → Option Content) → Option ((FileName → Option Content) × Nat) :=
  fun fs => some (fun f => if f = "file.txt" then (fs "file.txt").map (fun c => c ++ [10]) else fs f, 0)

/-- A file system with one file `file.txt` lacking a trailing newline. -/
def fs_example : FileName → Option Content :=
  fun f => if f = "file.txt" then some [104, 105] else none

/-! ## Helper lemmas about the deletion sweep -/

theorem delete_sweep_completes (env : StoreEnv) :
    ∀ ps dir : List Path, (∀ p ∈ ps, env.delete_ok p = true) →
      (delete_sweep env ps dir).1 = true := by
  intro ps
  induction ps with
  | nil => intro dir _; rfl
  | cons p rest ih =>
    intro dir h
    have hp : env.delete_ok p = true := h p (by simp)
    simp only [delete_sweep, hp, if_true]
    exact ih _ fun q hq => h q (by simp [hq])

theorem delete_sweep_mem_of_completes (env : StoreEnv) :
    ∀ ps dir : List Path, (delete_sweep env ps dir).1 = true →
      ∀ q : Path, q ∈ (delete_sweep env ps dir).2.1 ↔ (q ∈ dir ∧ ¬ q ∈ ps) := by
  intro ps
  induction ps with
  | nil => intro dir _ q; simp [delete_sweep]
  | cons p rest ih =>
    intro dir hc q
    by_cases hp : env.delete_ok p = true
    · simp only [delete_sweep, hp, if_true] at hc ⊢
      rw [ih _ hc q]
      simp only [List.mem_filter, List.mem_cons]
      constructor
      · rintro ⟨⟨hqd, hqp⟩, hqr⟩
        simp only [Bool.not_eq_true', decide_eq_false_iff_not] at hqp
        exact ⟨hqd, by tauto⟩
      · rintro ⟨hqd, hqn⟩
        push_neg at hqn
        exact ⟨⟨hqd, by simp [hqn.1]⟩, hqn.2⟩
    · simp only [delete_sweep, hp, if_false] at hc
      exact absurd hc (by simp)

theorem delete_sweep_keeps (env : StoreEnv) :
    ∀ ps dir : List Path, ∀ q : Path, q ∈ dir → ¬ q ∈ ps →
      q ∈ (delete_sweep env ps dir).2.1 := by
  intro ps
  induction ps with
  | nil => intro dir q hq _; simpa [delete_sweep] using hq
  | cons p rest ih =>
    intro dir q hq hn
    simp only [List.mem_cons, not_or] at hn
    by_cases hp : env.delete_ok p = true
    · simp only [delete_sweep, hp, if_true]
      exact ih _ q (by simp [List.mem_filter, hq, hn.1]) hn.2
    · simp only [delete_sweep, hp, if_false]
      exact hq

theorem delete_sweep_fails (env : StoreEnv) :
    ∀ ps dir : List Path, ∀ p : Path, p ∈ ps → env.delete_ok p = false →
      (delete_sweep env ps dir).1 = false := by
  intro ps
  induction ps with
  | nil => intro dir p hp _; exact absurd hp (by simp)
  | cons a rest ih =>
    intro dir p hp hbad
    by_cases ha : env.delete_ok a = true
    · simp only [delete_sweep, ha, if_true]
      have hpr : p ∈ rest := by
        rcases List.mem_cons.mp hp with h | h
        · exact absurd (h ▸ hbad) (by simp [ha, h])
        · exact h
      exact ih _ p hpr hbad
    · simp [delete_sweep, ha]

theorem delete_sweep_abort_keeps (env : StoreEnv) :
    ∀ l1 : List Path, ∀ p : Path, ∀ l2 dir : List Path,
      (∀ q ∈ l1, env.delete_ok q = true) → env.delete_ok p = false →
      ∀ q ∈ l2, q ∈ dir → ¬ q ∈ l1 → q ≠ p →
        q ∈ (delete_sweep env (l1 ++ p :: l2) dir).2.1 := by
  intro l1
  induction l1 with
  | nil =>
    intro p l2 dir _ hp q _ hqdir _ _
    simp only [List.nil_append, delete_sweep, hp, Bool.false_eq_true, if_false]
    exact hqdir
  | cons a l1' ih =>
    intro p l2 dir h hp q hq hqdir hnl1 hne
    have ha : env.delete_ok a = true := h a (by simp)
    simp only [List.cons_append, delete_sweep, ha, if_true]
    simp only [List.mem_cons, not_or] at hnl1
    exact ih p l2 _ (fun x hx => h x (by simp [hx])) hp q hq
      (by simp [List.mem_filter, hqdir, hnl1.1]) hnl1.2 hne

theorem delete_sweep_events (env : StoreEnv) :
    ∀ ps dir : List Path, ∀ e : Event, e ∈ (delete_sweep env ps dir).2.2 →
      ∃ p, e = Event.deleteEv p := by
  intro ps
  induction ps with
  | nil => intro dir e he; exact absurd he (by simp [delete_sweep])
  | cons p rest ih =>
    intro dir e he
    by_cases hp : env.delete_ok p = true
    · simp only [delete_sweep, hp, if_true, List.mem_cons] at he
      rcases he with h | h
      · exact ⟨p, h⟩
      · exact ih _ e h
    · simp only [delete_sweep, hp, Bool.false_eq_true, if_false, List.mem_singleton] at he
      exact ⟨p, he⟩

/-! ## Helper lemmas about `gc` -/

theorem gc_some_eq (env : StoreEnv) (entries cfgs : List Path)
    (hst : env.store_ok = true) (hlk : env.lock_ok = true) (hrd : env.read_dir_ok = true)
    (hsel : env.select_all_configs = Except.ok cfgs) :
    gc env (some entries) =
      ⟨(if (delete_sweep env (unused_repos (all_repos_on_disk env entries)
              (used_repo_paths env (live_configs env cfgs))) entries).1
          then Except.ok (unused_repos (all_repos_on_disk env entries)
              (used_repo_paths env (live_configs env cfgs))).length
          else Except.error ()),
        some (delete_sweep env (unused_repos (all_repos_on_disk env entries)
              (used_repo_paths env (live_configs env cfgs))) entries).2.1,
        Event.lockAcquire ::
          ((Event.readDir :: cfgs.map Event.readConfigEv ++
            (delete_sweep env (unused_repos (all_repos_on_disk env entries)
              (used_repo_paths env (live_configs env cfgs))) entries).2.2) ++
           [Event.lockRelease])⟩ := by
  simp [gc, gc_body, hst, hlk, hrd, hsel]

theorem gc_exit_ok_elim (env : StoreEnv) (dir : Option (List Path)) (n : Nat)
    (hok : (gc env dir).exit = Except.ok n) :
    env.store_ok = true ∧ env.lock_ok = true ∧
      ∃ cfgs, env.select_all_configs = Except.ok cfgs := by
  by_cases hst : env.store_ok = true
  · by_cases hlk : env.lock_ok = true
    · refine ⟨hst, hlk, ?_⟩
      cases hsel : env.select_all_configs with
      | error e =>
        exfalso
        cases dir with
        | none => simp [gc, gc_body, hst, hlk, hsel] at hok
        | some entries =>
          by_cases hrd : env.read_dir_ok = true
          · simp [gc, gc_body, hst, hlk, hrd, hsel] at hok
          · simp only [Bool.not_eq_true] at hrd
            simp [gc, gc_body, hst, hlk, hrd, hsel] at hok
      | ok cfgs => exact ⟨cfgs, rfl⟩
    · simp only [Bool.not_eq_true] at hlk
      simp [gc, hst, hlk] at hok
  · simp only [Bool.not_eq_true] at hst
    simp [gc, hst] at hok

theorem gc_exit_ok_some_elim (env : StoreEnv) (entries cfgs : List Path) (n : Nat)
    (hsel : env.select_all_configs = Except.ok cfgs)
    (hok : (gc env (some entries)).exit = Except.ok n) :
    env.read_dir_ok = true ∧
      (delete_sweep env (unused_repos (all_repos_on_disk env entries)
        (used_repo_paths env (live_configs env cfgs))) entries).1 = true := by
  obtain ⟨hst, hlk, _⟩ := gc_exit_ok_elim env (some entries) n hok
  by_cases hrd : env.read_dir_ok = true
  · refine ⟨hrd, ?_⟩
    rw [gc_some_eq env entries cfgs hst hlk hrd hsel] at hok
    by_cases hs : (delete_sweep env (unused_repos (all_repos_on_disk env entries)
        (used_repo_paths env (live_configs env cfgs))) entries).1 = true
    · exact hs
    · simp only [Bool.not_eq_true] at hs
      simp [hs] at hok
  · simp only [Bool.not_eq_true] at hrd
    simp [gc, gc_body, hst, hlk, hrd, hsel] at hok

/-! ## Claim theorems -/

/-- C1: GC soundness — for every set of on-disk entries under
`repos_dir` and every set of registered configuration paths, after `gc`
completes successfully, a path is still on disk exactly when it was on
disk before and is a cache path obtained by applying `repo_path` to a
`Remote` repo of a successfully-read registered configuration: every
such live path that was on disk still exists, and every on-disk entry
that is not such a path no longer exists. -/
theorem gc_soundness (env : StoreEnv) (entries cfgs : List Path) (n : Nat)
    (hentry : ∀ p, env.entry_ok p = true)
    (hsel : env.select_all_configs = Except.ok cfgs)
    (hok : (gc env (some entries)).exit = Except.ok n) :
    (gc env (some entries)).repos_dir.isSome = true ∧
    ∀ p : Path, p ∈ (gc env (some entries)).repos_dir.getD [] ↔
      (p ∈ entries ∧ p ∈ used_repo_paths env (live_configs env cfgs)) := by
  obtain ⟨hst, hlk, _⟩ := gc_exit_ok_elim env (some entries) n hok
  obtain ⟨hrd, hsw⟩ := gc_exit_ok_some_elim env entries cfgs n hsel hok
  rw [gc_some_eq env entries cfgs hst hlk hrd hsel]
  refine ⟨rfl, ?_⟩
  intro p
  show p ∈ (delete_sweep env (unused_repos (all_repos_on_disk env entries)
      (used_repo_paths env (live_configs env cfgs))) entries).2.1 ↔ _
  rw [delete_sweep_mem_of_completes env _ entries hsw p]
  have hmem : p ∈ unused_repos (all_repos_on_disk env entries)
      (used_repo_paths env (live_configs env cfgs)) ↔
      (p ∈ entries ∧ ¬ p ∈ used_repo_paths env (live_configs env cfgs)) := by
    simp [unused_repos, all_repos_on_disk, List.mem_filter, List.mem_dedup, hentry p]
  rw [hmem]
  tauto

/-- C1 witness: in a store caching `repos/u-r` (live via config `cfg`)
and `repos/old` (unreferenced), the live repository survives `gc`. -/
theorem gc_soundness_witness :
    "repos/u-r" ∈ (gc env1 (some ["repos/u-r", "repos/old"])).repos_dir.getD [] := by
  have h := gc_soundness env1 ["repos/u-r", "repos/old"] ["cfg"] 1
    (fun p => rfl) rfl rfl
  exact (h.2 "repos/u-r").mpr ⟨by decide, by decide⟩

/-- C4: GC idempotence — if a `gc` run completes successfully, running
`gc` again on the resulting store state with no intervening changes
removes 0 repositories (the second run reports a count of 0). -/
theorem gc_idempotent (env : StoreEnv) (dir : Option (List Path)) (n : Nat)
    (hok : (gc env dir).exit = Except.ok n) :
    (gc env ((gc env dir).repos_dir)).exit = Except.ok 0 := by
  obtain ⟨hst, hlk, cfgs, hsel⟩ := gc_exit_ok_elim env dir n hok
  cases dir with
  | none =>
    have h1 : (gc env none).repos_dir = none := by
      simp [gc, gc_body, hst, hlk, hsel]
    rw [h1]
    simp [gc, gc_body, hst, hlk, hsel]
  | some entries =>
    obtain ⟨hrd, hsw⟩ := gc_exit_ok_some_elim env entries cfgs n hsel hok
    have hdir : (gc env (some entries)).repos_dir
        = some ((delete_sweep env (unused_repos (all_repos_on_disk env entries)
            (used_repo_paths env (live_configs env cfgs))) entries).2.1) := by
      rw [gc_some_eq env entries cfgs hst hlk hrd hsel]
    rw [hdir]
    rw [gc_some_eq env _ cfgs hst hlk hrd hsel]
    have hu : unused_repos (all_repos_on_disk env
        ((delete_sweep env (unused_repos (all_repos_on_disk env entries)
          (used_repo_paths env (live_configs env cfgs))) entries).2.1))
        (used_repo_paths env (live_configs env cfgs)) = [] := by
      apply List.filter_eq_nil_iff.mpr
      intro q hq
      simp only [all_repos_on_disk, List.mem_dedup, List.mem_filter] at hq
      have hmem := (delete_sweep_mem_of_completes env _ entries hsw q).mp hq.1
      simp only [Bool.not_eq_true', decide_eq_false_iff_not, not_not]
      by_contra hqu
      apply hmem.2
      simp only [unused_repos, all_repos_on_disk, List.mem_filter, List.mem_dedup]
      exact ⟨by simp [List.mem_filter, hmem.1, hq.2], by simpa using hqu⟩
    rw [hu]
    simp [delete_sweep]

/-- C4 witness: the concrete store of the C1 witness — the first `gc`
removes one repository; an immediate second run removes 0. -/
theorem gc_idempotent_witness :
    (gc env1 ((gc env1 (some ["repos/u-r", "repos/old"])).repos_dir)).exit
      = Except.ok 0 :=
  gc_idempotent env1 (some ["repos/u-r", "repos/old"]) 1 rfl

/-- C5: if `repos_dir` does not exist, `gc` treats the on-disk set as
empty, reports zero removals, does not return an error, and does not
create the directory — for any registered configurations (in particular
a configuration containing only `local`/`meta` repos). -/
theorem gc_missing_repos_dir (env : StoreEnv) (cfgs : List Path)
    (hst : env.store_ok = true) (hlk : env.lock_ok = true)
    (hsel : env.select_all_configs = Except.ok cfgs) :
    (gc env none).exit = Except.ok 0 ∧ (gc env none).repos_dir = none := by
  constructor <;> simp [gc, gc_body, hst, hlk, hsel]

/-- C5 witness: a store whose only registered configuration holds just
`local` and `meta` repos and whose `repos_dir` is absent: `gc` reports
0 removals and no error. -/
theorem gc_missing_repos_dir_witness :
    (gc env_local_meta none).exit = Except.ok 0 ∧
      (gc env_local_meta none).repos_dir = none :=
  gc_missing_repos_dir env_local_meta ["cfg"] rfl rfl rfl

theorem live_configs_cons (env : StoreEnv) (a : Path) (rest : List Path) :
    live_configs env (a :: rest) =
      match (env.read_config a).toOption with
      | none => live_configs env rest
      | some c => c :: live_configs env rest := by
  cases hfa : (env.read_config a).toOption with
  | none => simp [live_configs, List.filterMap_cons, hfa]
  | some c => simp [live_configs, List.filterMap_cons, hfa]

theorem mem_unused_repos (env : StoreEnv) (entries used : List Path) (q : Path) :
    q ∈ unused_repos (all_repos_on_disk env entries) used ↔
      (q ∈ entries ∧ env.entry_ok q = true ∧ ¬ q ∈ used) := by
  simp [unused_repos, all_repos_on_disk, List.mem_filter, List.mem_dedup, and_assoc]

/-- C2 counterexample: a store with one on-disk repository `r1`, no
live configuration (so `r1` is in the unused set), and a `delete_repo`
that fails on it. The claim says the deletion error is only collected
and `gc` still exits 0; in fact `gc.rs` line 56 applies `?` to
`delete_repo`, so `gc` propagates the error and exits with failure. -/
theorem gc_delete_error_cex :
    "r1" ∈ unused_repos (all_repos_on_disk env_del_fail ["r1"])
        (used_repo_paths env_del_fail (live_configs env_del_fail [])) ∧
    (gc env_del_fail (some ["r1"])).exit = Except.error () := by
  exact ⟨by decide, rfl⟩

/-- C2 amended: `gc`'s deletion sweep is not best-effort. If every
unused entry's deletion succeeds, `gc` exits 0 reporting the full
unused count; but as soon as one unused entry's deletion fails, the `?`
operator aborts the sweep: `gc` returns the error (non-zero exit, no
count reported) and the unused entries after the failing one are not
deleted. -/
theorem gc_delete_error_propagates (env : StoreEnv) (entries cfgs : List Path)
    (hst : env.store_ok = true) (hlk : env.lock_ok = true) (hrd : env.read_dir_ok = true)
    (hsel : env.select_all_configs = Except.ok cfgs) :
    ((∀ p ∈ unused_repos (all_repos_on_disk env entries)
        (used_repo_paths env (live_configs env cfgs)), env.delete_ok p = true) →
      (gc env (some entries)).exit = Except.ok (unused_repos (all_repos_on_disk env entries)
        (used_repo_paths env (live_configs env cfgs))).length) ∧
    (∀ l1 : List Path, ∀ p : Path, ∀ l2 : List Path,
      unused_repos (all_repos_on_disk env entries)
        (used_repo_paths env (live_configs env cfgs)) = l1 ++ p :: l2 →
      (∀ q ∈ l1, env.delete_ok q = true) → env.delete_ok p = false →
      ((gc env (some entries)).exit = Except.error () ∧
        ∀ q ∈ l2, q ∈ (gc env (some entries)).repos_dir.getD [])) := by
  have hgc := gc_some_eq env entries cfgs hst hlk hrd hsel
  constructor
  · intro hall
    rw [hgc]
    show (if (delete_sweep env _ entries).1 then _ else _) = _
    rw [delete_sweep_completes env _ entries hall]
    rfl
  · intro l1 p l2 hsplit hl1 hp
    have hpU : p ∈ unused_repos (all_repos_on_disk env entries)
        (used_repo_paths env (live_configs env cfgs)) := by
      rw [hsplit]; simp
    have hfail := delete_sweep_fails env _ entries p hpU hp
    constructor
    · rw [hgc]
      show (if (delete_sweep env _ entries).1 then _ else _) = _
      rw [hfail]
      rfl
    · intro q hq
      have hnodup : (unused_repos (all_repos_on_disk env entries)
          (used_repo_paths env (live_configs env cfgs))).Nodup :=
        (List.nodup_dedup _).filter _
      rw [hsplit, List.nodup_append] at hnodup
      have hqne : q ≠ p := by
        intro he
        exact (List.nodup_cons.mp hnodup.2.1).1 (he ▸ hq)
      have hqnl1 : ¬ q ∈ l1 := fun hql1 =>
        hnodup.2.2 hql1 (List.mem_cons_of_mem p hq)
      have hqent : q ∈ entries := by
        have hqU : q ∈ unused_repos (all_repos_on_disk env entries)
            (used_repo_paths env (live_configs env cfgs)) := by
          rw [hsplit]; simp [hq]
        exact ((mem_unused_repos env entries _ q).mp hqU).1
      have hkeep := delete_sweep_abort_keeps env l1 p l2 entries hl1 hp q hq hqent hqnl1 hqne
      rw [hgc]
      show q ∈ (delete_sweep env (unused_repos (all_repos_on_disk env entries)
          (used_repo_paths env (live_configs env cfgs))) entries).2.1
      rw [hsplit]
      exact hkeep

/-- C2 amended witness: in the `env_del_fail` store with unused set
`["r1"]` (split as `[] ++ "r1" :: []`), the failing deletion makes `gc`
return the propagated error. -/
theorem gc_delete_error_propagates_witness :
    (gc env_del_fail (some ["r1"])).exit = Except.error () := by
  have h := (gc_delete_error_propagates env_del_fail ["r1"] [] rfl rfl rfl rfl).2
    [] "r1" [] (by decide) (by intro q hq; exact absurd hq (List.not_mem_nil q)) rfl
  exact h.1

/-- C6: a registered configuration path that no longer exists or fails
to parse is silently dropped: it contributes no live references (the
live-config list is unchanged when the path is removed from the
registry), and consequently a repository not pinned by any
successfully-read configuration is removed by a completing `gc` run. -/
theorem gc_drops_bad_configs (env : StoreEnv) (cfgs : List Path) (cp : Path)
    (hbad : env.read_config cp = Except.error ()) :
    live_configs env cfgs = live_configs env (cfgs.filter fun q => !decide (q = cp)) ∧
    (∀ entries : List Path, ∀ n : Nat, ∀ p : Path,
      (∀ q, env.entry_ok q = true) →
      env.select_all_configs = Except.ok cfgs →
      (gc env (some entries)).exit = Except.ok n →
      ¬ p ∈ used_repo_paths env (live_configs env cfgs) →
      ¬ p ∈ (gc env (some entries)).repos_dir.getD []) := by
  constructor
  · induction cfgs with
    | nil => rfl
    | cons a rest ih =>
      by_cases ha : a = cp
      · have hfil : (a :: rest).filter (fun q => !decide (q = cp))
            = rest.filter (fun q => !decide (q = cp)) := by
          simp [List.filter_cons, ha]
        rw [hfil, live_configs_cons, ha, hbad]
        exact ih
      · have hfil : (a :: rest).filter (fun q => !decide (q = cp))
            = a :: rest.filter (fun q => !decide (q = cp)) := by
          simp [List.filter_cons, ha]
        rw [hfil, live_configs_cons, live_configs_cons]
        cases hfa : (env.read_config a).toOption with
        | none => simp only [hfa]; exact ih
        | some c => simp only [hfa]; rw [ih]
  · intro entries n p hentry hsel hok hpu
    obtain ⟨hst, hlk, _⟩ := gc_exit_ok_elim env (some entries) n hok
    obtain ⟨hrd, hsw⟩ := gc_exit_ok_some_elim env entries cfgs n hsel hok
    have hdir : (gc env (some entries)).repos_dir
        = some ((delete_sweep env (unused_repos (all_repos_on_disk env entries)
            (used_repo_paths env (live_configs env cfgs))) entries).2.1) := by
      rw [gc_some_eq env entries cfgs hst hlk hrd hsel]
    rw [hdir]
    intro hmem
    simp only [Option.getD_some] at hmem
    have h2 := (delete_sweep_mem_of_completes env _ entries hsw p).mp hmem
    apply h2.2
    rw [mem_unused_repos]
    exact ⟨h2.1, hentry p, hpu⟩

/-- C6 witness: the store whose single registered configuration fails
to read — that configuration contributes no live references. -/
theorem gc_drops_bad_configs_witness :
    live_configs env_bad_cfg ["cfg"]
      = live_configs env_bad_cfg (["cfg"].filter fun q => !decide (q = "cfg")) :=
  (gc_drops_bad_configs env_bad_cfg ["cfg"] "cfg" rfl).1

/-- C10 (implicit): when opening `repos_dir` succeeds, a directory
entry that yields an error during iteration is silently skipped — it is
treated as not on disk (never deleted, so it remains) and does not
abort `gc`; only the failure to open `repos_dir` itself is fatal. -/
theorem gc_entry_errors_skipped (env : StoreEnv) (entries cfgs : List Path)
    (hst : env.store_ok = true) (hlk : env.lock_ok = true)
    (hsel : env.select_all_configs = Except.ok cfgs) :
    (env.read_dir_ok = false → (gc env (some entries)).exit = Except.error ()) ∧
    (env.read_dir_ok = true → (∀ p, env.delete_ok p = true) →
      (gc env (some entries)).exit = Except.ok (unused_repos (all_repos_on_disk env entries)
        (used_repo_paths env (live_configs env cfgs))).length) ∧
    (env.read_dir_ok = true → ∀ e ∈ entries, env.entry_ok e = false →
      e ∈ (gc env (some entries)).repos_dir.getD []) := by
  refine ⟨?_, ?_, ?_⟩
  · intro hrd
    simp [gc, gc_body, hst, hlk, hrd, hsel]
  · intro hrd hdel
    rw [gc_some_eq env entries cfgs hst hlk hrd hsel]
    show (if (delete_sweep env _ entries).1 then _ else _) = _
    rw [delete_sweep_completes env _ entries (fun p _ => hdel p)]
    rfl
  · intro hrd e he hbadent
    rw [gc_some_eq env entries cfgs hst hlk hrd hsel]
    show e ∈ (delete_sweep env (unused_repos (all_repos_on_disk env entries)
        (used_repo_paths env (live_configs env cfgs))) entries).2.1
    apply delete_sweep_keeps env _ entries e he
    intro hu
    have h1 := ((mem_unused_repos env entries _ e).mp hu).2.1
    rw [hbadent] at h1
    exact Bool.false_ne_true h1

/-- C10 witness: `repos/bad` errors during iteration and `repos/old` is
unused — `gc` removes only `repos/old`, exits successfully, and
`repos/bad` is still on disk. -/
theorem gc_entry_errors_skipped_witness :
    (gc env_entry_err (some ["repos/bad", "repos/old"])).exit = Except.ok 1 ∧
    "repos/bad" ∈ (gc env_entry_err (some ["repos/bad", "repos/old"])).repos_dir.getD [] := by
  have h := gc_entry_errors_skipped env_entry_err ["repos/bad", "repos/old"] [] rfl rfl rfl
  refine ⟨?_, h.2.2 rfl "repos/bad" (by simp) (by decide)⟩
  have h2 := h.2.1 rfl (fun p => rfl)
  rw [h2]
  rfl

/-- Events emitted between lock acquisition and release are only
`readDir`, `readConfigEv` and `deleteEv` — never lock events. -/
theorem gc_body_events (env : StoreEnv) (dir : Option (List Path)) :
    ∀ e ∈ (gc_body env dir).2.2,
      (decide (e = Event.lockAcquire) || decide (e = Event.lockRelease)) = false := by
  intro e he
  have hshape : e = Event.readDir ∨ (∃ p, e = Event.readConfigEv p) ∨
      ∃ p, e = Event.deleteEv p := by
    cases dir with
    | none =>
      cases hsel : env.select_all_configs with
      | error u => simp [gc_body, hsel] at he
      | ok cfgs =>
        simp only [gc_body, hsel, List.mem_map] at he
        obtain ⟨p, _, hpe⟩ := he
        exact Or.inr (Or.inl ⟨p, hpe.symm⟩)
    | some entries =>
      by_cases hrd : env.read_dir_ok = true
      · cases hsel : env.select_all_configs with
        | error u =>
          simp only [gc_body, hrd, if_true, hsel, List.mem_singleton] at he
          exact Or.inl he
        | ok cfgs =>
          simp only [gc_body, hrd, if_true, hsel] at he
          rcases List.mem_cons.mp he with h | h
          · exact Or.inl h
          · rcases List.mem_append.mp h with h2 | h2
            · obtain ⟨p, _, hpe⟩ := List.mem_map.mp h2
              exact Or.inr (Or.inl ⟨p, hpe.symm⟩)
            · obtain ⟨p, hpe⟩ := delete_sweep_events env _ entries e h2
              exact Or.inr (Or.inr ⟨p, hpe⟩)
      · simp only [Bool.not_eq_true] at hrd
        simp only [gc_body, hrd, Bool.false_eq_true, if_false, List.mem_singleton] at he
        exact Or.inl he
  rcases hshape with h | ⟨p, h⟩ | ⟨p, h⟩ <;> subst h <;> rfl

/-- C9: the store's exclusive lock is acquired before any enumeration
of `repos_dir`, any configuration read and any deletion, and is held
for the whole of `gc`: either the lock was never acquired (store/lock
acquisition failed) and no operation at all was performed, or the trace
starts with `lockAcquire`, ends with `lockRelease`, and contains no
other lock event — so every enumeration, configuration read and
deletion happens strictly between the two. -/
theorem gc_lock_scope (env : StoreEnv) (dir : Option (List Path)) :
    ((gc env dir).trace = [] ∧ (env.store_ok = false ∨ env.lock_ok = false)) ∨
    ((gc env dir).trace.head? = some Event.lockAcquire ∧
      (gc env dir).trace.getLast? = some Event.lockRelease ∧
      ((gc env dir).trace.filter fun e =>
        decide (e = Event.lockAcquire) || decide (e = Event.lockRelease)).length = 2) := by
  by_cases hst : env.store_ok = true
  · by_cases hlk : env.lock_ok = true
    · right
      have htr : (gc env dir).trace
          = Event.lockAcquire :: ((gc_body env dir).2.2 ++ [Event.lockRelease]) := by
        simp [gc, hst, hlk]
      rw [htr]
      refine ⟨rfl, ?_, ?_⟩
      · rw [show Event.lockAcquire :: ((gc_body env dir).2.2 ++ [Event.lockRelease])
            = (Event.lockAcquire :: (gc_body env dir).2.2) ++ [Event.lockRelease] from rfl]
        exact List.getLast?_concat _
      · have h1 : ((gc_body env dir).2.2).filter (fun e =>
            decide (e = Event.lockAcquire) || decide (e = Event.lockRelease)) = [] :=
          List.filter_eq_nil_iff.mpr fun e he => by
            simp [gc_body_events env dir e he]
        rw [List.filter_cons, List.filter_append, h1]
        rfl
    · left
      simp only [Bool.not_eq_true] at hlk
      exact ⟨by simp [gc, hst, hlk], Or.inr hlk⟩
  · left
    simp only [Bool.not_eq_true] at hst
    exact ⟨by simp [gc, hst], Or.inl hst⟩

theorem replicate_marker_eq : ∀ n1 n2 : Nat, ∀ l1 l2 : List Char,
    List.replicate n1 'x' ++ '-' :: l1 = List.replicate n2 'x' ++ '-' :: l2 →
    n1 = n2 ∧ l1 = l2 := by
  intro n1
  induction n1 with
  | zero =>
    intro n2 l1 l2 h
    cases n2 with
    | zero =>
      rw [List.replicate_zero, List.nil_append, List.nil_append] at h
      injection h with _ h2
      exact ⟨rfl, h2⟩
    | succ m =>
      rw [List.replicate_zero, List.nil_append, List.replicate_succ,
        List.cons_append] at h
      injection h with h1 _
      exact absurd h1 (by decide)
  | succ n ih =>
    intro n2 l1 l2 h
    cases n2 with
    | zero =>
      rw [List.replicate_zero, List.nil_append, List.replicate_succ,
        List.cons_append] at h
      injection h with h1 _
      exact absurd h1 (by decide)
    | succ m =>
      rw [List.replicate_succ, List.replicate_succ, List.cons_append,
        List.cons_append] at h
      injection h with _ h2
      obtain ⟨hm, ht⟩ := ih m l1 l2 h2
      exact ⟨by rw [hm], ht⟩

/-- C7: content addressing — `repo_path` is a pure deterministic
function of `(url, rev)`: two calls agree exactly when the inputs
agree, so identical inputs give identical cache paths and distinct
`(url, rev)` pairs give distinct cache paths (no collisions). -/
theorem repo_path_content_addressing (d : String) (r1 r2 : RemoteRepo) :
    repo_path d r1 = repo_path d r2 ↔ r1 = r2 := by
  constructor
  · intro h
    have hdata : (d.data ++ ['/']) ++ encode_remote r1
        = (d.data ++ ['/']) ++ encode_remote r2 := congrArg String.data h
    have henc : encode_remote r1 = encode_remote r2 :=
      List.append_cancel_left hdata
    obtain ⟨hlen, happ⟩ := replicate_marker_eq r1.url.length r2.url.length
      (r1.url.data ++ r1.rev.data) (r2.url.data ++ r2.rev.data) henc
    obtain ⟨hu, hv⟩ := List.append_inj happ hlen
    have hurl : r1.url = r2.url := String.ext hu
    have hrev : r1.rev = r2.rev := String.ext hv
    cases r1; cases r2
    rw [RemoteRepo.mk.injEq]
    exact ⟨hurl, hrev⟩
  · intro h
    rw [h]

/-- C3: dry-run purity — for a hook that would modify files (the same
hook in apply mode yields `ModifiedFiles`), a dry-run invocation leaves
every matched file byte-identical to its pre-invocation content, ends
in the `DryRun` outcome, and its reported would-modify list is exactly
the set of matched files whose fingerprints differ when the hook is
actually applied. -/
theorem dry_run_purity
    (hook : (FileName → Option Content) → Option ((FileName → Option Content) × Nat))
    (files : List FileName) (fs0 : FileName → Option Content)
    (happly : (run_hook hook Mode.Apply files fs0).outcome = Outcome.ModifiedFiles) :
    (∀ f ∈ files, (run_hook hook Mode.DryRun files fs0).fs f = fs0 f) ∧
    (run_hook hook Mode.DryRun files fs0).outcome = Outcome.DryRun ∧
    (run_hook hook Mode.DryRun files fs0).changed
      = (run_hook hook Mode.Apply files fs0).changed ∧
    (∀ f : FileName, f ∈ (run_hook hook Mode.DryRun files fs0).changed ↔
      (f ∈ files ∧ ¬ (run_hook hook Mode.Apply files fs0).fs f = fs0 f)) := by
  cases hh : hook fs0 with
  | none => simp [run_hook, hh] at happly
  | some r =>
    by_cases hc : r.2 = 0
    · by_cases hch : (files.filter fun f => !decide (fs0 f = r.1 f)).isEmpty = true
      · simp [run_hook, hh, hc, hch] at happly
      · have hdry : run_hook hook Mode.DryRun files fs0 =
            ⟨Outcome.DryRun, fun f => if f ∈ files then fs0 f else r.1 f,
              files.filter fun f => !decide (fs0 f = r.1 f)⟩ := by
          simp [run_hook, hh, hc, hch]
        have happres : run_hook hook Mode.Apply files fs0 =
            ⟨Outcome.ModifiedFiles, r.1, files.filter fun f => !decide (fs0 f = r.1 f)⟩ := by
          simp [run_hook, hh, hc, hch]
        refine ⟨?_, ?_, ?_, ?_⟩
        · intro f hf
          rw [hdry]
          show (if f ∈ files then fs0 f else r.1 f) = fs0 f
          rw [if_pos hf]
        · rw [hdry]
        · rw [hdry, happres]
        · intro f
          rw [hdry, happres]
          show f ∈ files.filter (fun f => !decide (fs0 f = r.1 f)) ↔
            (f ∈ files ∧ ¬ r.1 f = fs0 f)
          simp only [List.mem_filter, Bool.not_eq_true', decide_eq_false_iff_not]
          exact and_congr_right fun _ => not_congr eq_comm
    · simp [run_hook, hh, hc] at happly

/-- C3 witness: an end-of-file-fixer style hook that would rewrite
`file.txt` — the dry run leaves the file's bytes unchanged and reports
the `DryRun` outcome. -/
theorem dry_run_purity_witness :
    (run_hook fixer_hook Mode.DryRun ["file.txt"] fs_example).fs "file.txt"
        = fs_example "file.txt" ∧
    (run_hook fixer_hook Mode.DryRun ["file.txt"] fs_example).outcome
        = Outcome.DryRun := by
  have h := dry_run_purity fixer_hook ["file.txt"] fs_example rfl
  exact ⟨h.1 "file.txt" (by simp), h.2.1⟩

/-- C8: a run's aggregate exit code is non-zero exactly when some hook
ended in `Failed`, `ModifiedFiles` or `Errored`; it is zero exactly
when every hook ended in `Passed` or `DryRun` — a `DryRun` outcome
never causes run failure. -/
theorem run_exit_code_characterization (outcomes : List Outcome) :
    (run_exit_code outcomes ≠ 0 ↔ ∃ o ∈ outcomes,
      (o = Outcome.Failed ∨ o = Outcome.ModifiedFiles ∨ o = Outcome.Errored)) ∧
    (run_exit_code outcomes = 0 ↔ ∀ o ∈ outcomes,
      (o = Outcome.Passed ∨ o = Outcome.DryRun)) := by
  have hfail : ∀ o : Outcome, hook_fails o = true ↔
      (o = Outcome.Failed ∨ o = Outcome.ModifiedFiles ∨ o = Outcome.Errored) := by
    intro o; cases o <;> simp [hook_fails]
  have hpass : ∀ o : Outcome, hook_fails o = false ↔
      (o = Outcome.Passed ∨ o = Outcome.DryRun) := by
    intro o; cases o <;> simp [hook_fails]
  constructor
  · constructor
    · intro h
      by_cases ha : outcomes.any hook_fails = true
      · obtain ⟨o, ho, hfo⟩ := List.any_eq_true.mp ha
        exact ⟨o, ho, (hfail o).mp hfo⟩
      · exact absurd (by simp [run_exit_code, ha] : run_exit_code outcomes = 0) h
    · rintro ⟨o, ho, hor⟩
      have ha : outcomes.any hook_fails = true :=
        List.any_eq_true.mpr ⟨o, ho, (hfail o).mpr hor⟩
      simp [run_exit_code, ha]
  · constructor
    · intro h o ho
      by_cases hfo : hook_fails o = true
      · have ha : outcomes.any hook_fails = true := List.any_eq_true.mpr ⟨o, ho, hfo⟩
        rw [run_exit_code, if_pos ha] at h
        exact absurd h (by simp)
      · exact (hpass o).mp (by simpa using hfo)
    · intro h
      have ha : outcomes.any hook_fails = false := by
        rw [List.any_eq_false]
        intro o ho
        simp [(hpass o).mpr (h o ho)]
      simp [run_exit_code, ha]

end Prek
